import Mathlib

/-!
Verification of the VITS discriminator checkpoint converter
(`convert_original_discriminator_checkpoint.py`).

The development shallowly embeds the conversion core: the key-rename loop
(lines 55-59 of the source), the extra/missing key validation (lines 61-68),
the weight-norm expand / load / collapse sequence (lines 46-74), and the
final model assembly (lines 76-88).  Python dictionaries are modelled as
insertion-ordered association lists with unique keys; Python strings as
`String` (a list of characters), with `str.replace` and `str.endswith`
reimplemented structurally so that all definitions evaluate by kernel
reduction.
-/

namespace VitsConv

/-! ## Strings: Python `str.replace`, `in`, `endswith` -/

/-- Bool test that the first character list is a prefix of the second. -/
def isPrefOf : List Char → List Char → Bool
  | [], _ => true
  | _ :: _, [] => false
  | a :: as, b :: bs => if a = b then isPrefOf as bs else false

/-- Python `pat in s` on character lists: `pat` occurs as a contiguous
substring of `s`.  The empty pattern is contained in every string. -/
def listContains (pat : List Char) : List Char → Bool
  | [] => pat.isEmpty
  | c :: rest => isPrefOf pat (c :: rest) || listContains pat rest

/-- Worker for `str.replace` with a non-empty pattern.  `skip` counts
characters still to be consumed silently as the tail of a match that has
already emitted its replacement. -/
def replaceAllGo (pat rep : List Char) : List Char → Nat → List Char
  | [], _ => []
  | c :: rest, 0 =>
      if isPrefOf pat (c :: rest) then
        rep ++ replaceAllGo pat rep rest (pat.length - 1)
      else
        c :: replaceAllGo pat rep rest 0
  | _ :: rest, skip + 1 => replaceAllGo pat rep rest skip

/-- Python `s.replace(pat, rep)`: every non-overlapping occurrence of `pat`
in `s`, scanned left to right, is replaced by `rep`.  For the empty pattern
Python inserts `rep` before every character and after the last one. -/
def strReplace (s pat rep : String) : String :=
  if pat.data.isEmpty then
    ⟨rep.data ++ (s.data.map (fun c => c :: rep.data)).flatten⟩
  else
    ⟨replaceAllGo pat.data rep.data s.data 0⟩

/-- Python `pat in s` on strings. -/
def strContains (pat s : String) : Bool :=
  listContains pat.data s.data

/-- Python `s.endswith(suf)`. -/
def strEndsWith (suf s : String) : Bool :=
  isPrefOf suf.data.reverse s.data.reverse

/-! ## Python dictionaries as insertion-ordered association lists -/

/-- A Python `dict` with string keys: an insertion-ordered association list
whose keys are unique. -/
abbrev Dict (α : Type) := List (String × α)

/-- The key list of a dictionary, in insertion order. -/
def dkeys {α : Type} (d : Dict α) : List String := d.map Prod.fst

/-- Python `d[k]` / `d.get(k)`: value at the first entry with key `k`. -/
def dlookup {α : Type} (k : String) : Dict α → Option α
  | [] => none
  | p :: rest => if p.1 = k then some p.2 else dlookup k rest

/-- Python `d[k] = v`: update the entry in place if the key is present
(keeping its position), otherwise append a new entry at the end. -/
def dset {α : Type} (d : Dict α) (k : String) (v : α) : Dict α :=
  if (dlookup k d).isSome then
    d.map (fun p => if p.1 = k then (k, v) else p)
  else
    d ++ [(k, v)]

/-- Python `d.pop(k)`: remove the first entry with key `k`, returning its
value and the remaining dictionary; `none` models the `KeyError` raised when
the key is absent. -/
def dpop {α : Type} (k : String) : Dict α → Option (α × Dict α)
  | [] => none
  | p :: rest =>
      if p.1 = k then some (p.2, rest)
      else
        match dpop k rest with
        | some (v, d1) => some (v, p :: d1)
        | none => none

/-! ## The rename table and the rename loop (source lines 19-21, 55-59) -/

/-- `MAPPING = \x7b"conv_post": "final_conv"\x7d` (source lines 19-21). -/
def MAPPING : Dict String := [("conv_post", "final_conv")]

/-- The inner loop of lines 56-57: `for old_layer_name in MAPPING: new_k =
k.replace(old_layer_name, MAPPING[old_layer_name])`.  Each iteration
recomputes `new_k` from the original `k`, discarding the previous value, so
only the last table entry survives.  `none` models the `NameError` raised at
line 59 when the table is empty and `new_k` was never bound. -/
def computeNewKey (table : Dict String) (k : String) : Option String :=
  table.foldl (fun _ p => some (strReplace k p.1 p.2)) none

/-- The outer loop of lines 55-59 over a snapshot of the items
(`list(state_dict.items())`), threading the in-place mutated dictionary:
`state_dict[new_k] = state_dict.pop(k)`. -/
def renameLoop {α : Type} (table : Dict String) :
    List (String × α) → Dict α → Option (Dict α)
  | [], d => some d
  | (k, _) :: rest, d =>
      match computeNewKey table k with
      | none => none
      | some nk =>
          match dpop k d with
          | none => none
          | some (v, d1) => renameLoop table rest (dset d1 nk v)

/-- Lines 55-59 as a whole: iterate over a snapshot of the dictionary's own
items while mutating it. -/
def renameStateDict {α : Type} (table : Dict String) (d : Dict α) :
    Option (Dict α) :=
  renameLoop table d d

/-! ## Validation (source lines 61-68) -/

/-- The suffix exempting a key from the extra/missing checks
(lines 62 and 64: `k.endswith(".attn.bias")`). -/
def isIgnored (k : String) : Bool := strEndsWith ".attn.bias" k

/-- The errors the conversion core can raise: the two `ValueError`s of
lines 66 and 68 carrying the offending key sets, a `torch.load` failure
(line 49), and the `NameError`/`KeyError` the rename loop would raise on an
empty rename table (line 59). -/
inductive ConvError : Type
  | extraKeysError (ks : Finset String)
  | missingKeysError (ks : Finset String)
  | loadFailure
  | renameFailure
  deriving DecidableEq

/-- Whether an error is one of the two validation `ValueError`s. -/
def isValidationError : ConvError → Bool
  | ConvError.extraKeysError _ => true
  | ConvError.missingKeysError _ => true
  | _ => false

/-- The key set of a dictionary, as a finite set (Python
`set(d.keys())`). -/
def keysF {α : Type} (d : Dict α) : Finset String := (dkeys d).toFinset

/-- Lines 61-68: compute `extra` and `missing` by set difference, filter out
ignore-suffixed keys, and fail on a non-empty `extra` first, then on a
non-empty `missing`. -/
def validate (sdKeys expKeys : Finset String) : Option ConvError :=
  let extra := (sdKeys \ expKeys).filter (fun k => isIgnored k = false)
  let missing := (expKeys \ sdKeys).filter (fun k => isIgnored k = false)
  if extra.card ≠ 0 then some (ConvError.extraKeysError extra)
  else if missing.card ≠ 0 then some (ConvError.missingKeysError missing)
  else none

/-- The spec's formula for the filtered extra set: keys of the renamed
mapping that are not expected, dropping ignore-suffixed keys. -/
def specExtra (sdKeys expKeys : Finset String) : Finset String :=
  (sdKeys \ expKeys).filter (fun k => isIgnored k = false)

/-- The spec's formula for the filtered missing set: expected keys absent
from the renamed mapping, dropping ignore-suffixed keys. -/
def specMissing (sdKeys expKeys : Finset String) : Finset String :=
  (expKeys \ sdKeys).filter (fun k => isIgnored k = false)

/-! ## Weight-norm reparameterization and the loader

`VitsDiscriminator.apply_weight_norm` / `remove_weight_norm` and
`load_state_dict` live in `utils.modeling_vits_training` and in torch, which
are not part of this repository's sources; they are modelled from the spec
(section 4.3 and 4.4). -/

/-- Modelled from the spec: the data of the reparameterization toggle
(`apply_weight_norm` / `remove_weight_norm`, not in src/).  `normWeights`
lists the designated weight keys; `decompose` splits a weight into its
magnitude and direction parts; `recombine` is the inverse composition. -/
structure WeightNormScheme : Type where
  normWeights : List String
  decompose : Int → Int × Int
  recombine : Int → Int → Int

/-- Modelled from the spec: `apply_weight_norm` on every discriminator
sub-layer (source lines 46-47, implementation not in src/) replaces each
designated weight key `k` by the decomposed pair `k_g`, `k_v`, recomputed
from the current weight. -/
def expandParams (sch : WeightNormScheme) (d : Dict Int) : Dict Int :=
  (d.map (fun p =>
    if p.1 ∈ sch.normWeights then
      [(p.1 ++ "_g", (sch.decompose p.2).1), (p.1 ++ "_v", (sch.decompose p.2).2)]
    else [p])).flatten

/-- Modelled from the spec: `remove_weight_norm` on every discriminator
sub-layer (source lines 73-74, implementation not in src/) recombines each
decomposed pair `k_g`, `k_v` back into the single key `k`; keys of modules
never expanded pass through unchanged. -/
def collapseParams (sch : WeightNormScheme) (d : Dict Int) : Dict Int :=
  (d.map (fun p =>
    match sch.normWeights.find? (fun w => decide (w ++ "_g" = p.1)) with
    | some w =>
        [(w, match dlookup (w ++ "_v") d with
             | some dv => sch.recombine p.2 dv
             | none => p.2)]
    | none =>
        if sch.normWeights.any (fun w => decide (w ++ "_v" = p.1)) then []
        else [p])).flatten

/-- Modelled from the spec: `load_state_dict(state_dict, strict=False)`
(source line 69, torch implementation not in src/) assigns each mapped value
into the parameter of the same name; parameters absent from the mapping keep
their current value, and mapping keys naming no parameter are ignored. -/
def loadStateDict (params : Dict Int) (sd : Dict Int) : Dict Int :=
  params.map (fun p =>
    match dlookup p.1 sd with
    | some w => (p.1, w)
    | none => p)

/-! ## The conversion core (source lines 44-74) -/

/-- The discriminator module: whether weight norm is currently applied, and
its current parameter dictionary (`state_dict()`). -/
structure DiscState : Type where
  expanded : Bool
  params : Dict Int
  deriving DecidableEq

/-- The conversion core, lines 44-74 of the source: construct the
discriminator (`init` is its constructed parameter dictionary), apply weight
norm to every sub-discriminator, load the raw checkpoint (`loadResult` is
`none` when `torch.load` fails), rename the keys in place, validate, load
the state dict, and remove weight norm.  Returns the discriminator module's
final state together with the error raised, if any; note that
`remove_weight_norm` is executed only on the error-free path, exactly as in
the source (no `try`/`finally`). -/
def convertCore (sch : WeightNormScheme) (loadResult : Option (Dict Int))
    (init : Dict Int) : DiscState × Option ConvError :=
  let disc1 : DiscState := ⟨true, expandParams sch init⟩
  match loadResult with
  | none => (disc1, some ConvError.loadFailure)
  | some ckpt =>
      match renameStateDict MAPPING ckpt with
      | none => (disc1, some ConvError.renameFailure)
      | some sd =>
          match validate (keysF sd) (keysF disc1.params) with
          | some e => (disc1, some e)
          | none =>
              let loaded := loadStateDict disc1.params sd
              (⟨false, collapseParams sch loaded⟩, none)

/-! ## Model assembly (source lines 76-88) -/

/-- The structural configuration, as far as assembly consults it
(`config.num_speakers`, line 85). -/
structure VitsConfigM : Type where
  num_speakers : Nat

/-- The already converted generator object with its submodules; the
submodule type `μ` is abstract, so equality of submodules states reference
aliasing. -/
structure GeneratorModel (μ : Type) : Type where
  text_encoder : μ
  flow : μ
  decoder : μ
  duration_predictor : μ
  posterior_encoder : μ
  embed_speaker : μ

/-- The combined pretraining model object with its submodules and the
discriminator (type `δ`). -/
structure PreTrainingModel (μ δ : Type) : Type where
  text_encoder : μ
  flow : μ
  decoder : μ
  duration_predictor : μ
  posterior_encoder : μ
  embed_speaker : μ
  discriminator : δ

/-- Lines 76-88: starting from the freshly constructed
`VitsModelForPreTraining` object, alias the generator's five submodules,
alias its speaker embedding only when the configuration declares more than
one speaker, and attach the loaded discriminator. -/
def assembleModel {μ δ : Type} (cfg : VitsConfigM) (fresh : PreTrainingModel μ δ)
    (generator : GeneratorModel μ) (disc : δ) : PreTrainingModel μ δ :=
  let m1 : PreTrainingModel μ δ :=
    { fresh with
      text_encoder := generator.text_encoder
      flow := generator.flow
      decoder := generator.decoder
      duration_predictor := generator.duration_predictor
      posterior_encoder := generator.posterior_encoder }
  let m2 : PreTrainingModel μ δ :=
    if cfg.num_speakers > 1 then { m1 with embed_speaker := generator.embed_speaker }
    else m1
  { m2 with discriminator := disc }

/-- The program's rename of a single key: `k.replace("conv_post",
"final_conv")`. -/
def repMapping (k : String) : String := strReplace k "conv_post" "final_conv"

/-- A weight-norm scheme designating no weights: expand and collapse leave
the parameter dictionary untouched. -/
def trivScheme : WeightNormScheme :=
  ⟨[], fun v => (v, v), fun g _ => g⟩

/-- A weight-norm scheme designating the single weight key `w`. -/
def oneKeyScheme : WeightNormScheme :=
  ⟨["w"], fun v => (v, v), fun g _ => g⟩

/-! ## Dictionary lemmas -/

theorem dlookup_eq_none_iff {α : Type} (k : String) (d : Dict α) :
    dlookup k d = none ↔ k ∉ dkeys d := by
  induction d with
  | nil => simp [dlookup, dkeys]
  | cons p rest ih =>
      by_cases h : p.1 = k
      · simp [dlookup, dkeys, h]
      · simp [dlookup, dkeys, h, ih, Ne.symm h]

theorem dkeys_append {α : Type} (a b : Dict α) :
    dkeys (a ++ b) = dkeys a ++ dkeys b := by
  simp [dkeys]

theorem dset_of_not_mem {α : Type} {k : String} {d : Dict α} (v : α)
    (h : k ∉ dkeys d) : dset d k v = d ++ [(k, v)] := by
  have hl : dlookup k d = none := (dlookup_eq_none_iff k d).mpr h
  simp [dset, hl]

theorem dkeys_dset {α : Type} (k : String) (v : α) (d : Dict α) :
    dkeys (dset d k v) =
      if (dlookup k d).isSome then dkeys d else dkeys d ++ [k] := by
  by_cases h : (dlookup k d).isSome
  · simp only [dset, h, if_true, dkeys, List.map_map]
    refine List.map_congr_left ?_
    intro p _
    by_cases hp : p.1 = k <;> simp [hp]
  · simp [dset, h, dkeys]

theorem mem_dkeys_dset {α : Type} {k1 k : String} {d : Dict α} (v : α)
    (h : k1 ∈ dkeys d) : k1 ∈ dkeys (dset d k v) := by
  rw [dkeys_dset]
  by_cases hs : (dlookup k d).isSome <;> simp [hs, h]

theorem nodup_dkeys_dset {α : Type} {k : String} {d : Dict α} (v : α)
    (h : (dkeys d).Nodup) : (dkeys (dset d k v)).Nodup := by
  rw [dkeys_dset]
  by_cases hs : (dlookup k d).isSome
  · simpa [hs] using h
  · have hk : k ∉ dkeys d := by
      rw [← dlookup_eq_none_iff k d]
      exact Option.not_isSome_iff_eq_none.mp hs
    simp [hs, List.nodup_append, h, hk]

theorem dpop_some_ex {α : Type} {k : String} {d : Dict α} {v : α}
    {d1 : Dict α} (h : dpop k d = some (v, d1)) :
    ∃ l1 l2, d = l1 ++ (k, v) :: l2 ∧ d1 = l1 ++ l2 := by
  induction d generalizing d1 with
  | nil => simp [dpop] at h
  | cons p rest ih =>
      by_cases hp : p.1 = k
      · rw [dpop, if_pos hp] at h
        obtain ⟨hv, hd⟩ := Prod.mk.injEq .. ▸ Option.some.inj h
        refine ⟨[], rest, ?_, by simp [hd]⟩
        have : p = (k, v) := by
          obtain ⟨p1, p2⟩ := p
          simp only at hp hv
          simp [hp, hv]
        simp [this]
      · rw [dpop, if_neg hp] at h
        cases hrest : dpop k rest with
        | none => rw [hrest] at h; exact absurd h (by simp)
        | some pr =>
            obtain ⟨v', d1'⟩ := pr
            rw [hrest] at h
            obtain ⟨hv, hd⟩ := Prod.mk.injEq .. ▸ Option.some.inj h
            obtain ⟨l1, l2, hrest1, hrest2⟩ := ih (hv ▸ hrest)
            exact ⟨p :: l1, l2, by simp [hrest1], by simp [← hd, hrest2]⟩

theorem dpop_isSome_of_mem {α : Type} {k : String} {d : Dict α}
    (h : k ∈ dkeys d) : (dpop k d).isSome := by
  induction d with
  | nil => simp [dkeys] at h
  | cons p rest ih =>
      by_cases hp : p.1 = k
      · simp [dpop, hp]
      · rw [dpop, if_neg hp]
        have h2 : k ∈ p.1 :: dkeys rest := h
        have hm : k ∈ dkeys rest := by
          rcases List.mem_cons.mp h2 with h1 | h1
          · exact absurd h1.symm hp
          · exact h1
        cases hrest : dpop k rest with
        | none => rw [hrest] at ih; simp at ih; exact absurd (ih hm) (by simp)
        | some pr => simp

theorem dpop_keys_sublist {α : Type} {k : String} {d : Dict α} {v : α}
    {d1 : Dict α} (h : dpop k d = some (v, d1)) :
    List.Sublist (dkeys d1) (dkeys d) := by
  obtain ⟨l1, l2, h1, h2⟩ := dpop_some_ex h
  rw [h1, h2, dkeys_append, dkeys_append]
  refine List.Sublist.append_left ?_ _
  simp only [dkeys, List.map_cons]
  exact List.sublist_cons_self _ _

theorem dpop_mem_of_ne {α : Type} {k k1 : String} {d : Dict α} {v : α}
    {d1 : Dict α} (h : dpop k d = some (v, d1)) (hne : k1 ≠ k)
    (hm : k1 ∈ dkeys d) : k1 ∈ dkeys d1 := by
  obtain ⟨l1, l2, h1, h2⟩ := dpop_some_ex h
  subst h1; subst h2
  rw [dkeys_append] at hm ⊢
  rcases List.mem_append.mp hm with h3 | h3
  · exact List.mem_append.mpr (Or.inl h3)
  · rcases (by simpa [dkeys] using h3 : k1 = k ∨ k1 ∈ dkeys l2) with h4 | h4
    · exact absurd h4 hne
    · exact List.mem_append.mpr (Or.inr h4)

/-! ## Rename-table lemmas -/

theorem foldl_discard_last (f : String × String → String) :
    ∀ (t : List (String × String)) (acc : Option String),
      List.foldl (fun _ p => some (f p)) acc t =
        match t.getLast? with
        | none => acc
        | some p => some (f p) := by
  intro t
  induction t with
  | nil => intro acc; simp
  | cons p rest ih =>
      intro acc
      rw [List.foldl_cons, ih (some (f p))]
      cases rest with
      | nil => simp
      | cons q rest1 =>
          rw [List.getLast?_cons_cons,
            List.getLast?_eq_getLast (q :: rest1) (by simp)]

theorem computeNewKey_eq_getLast (t : Dict String) (k : String) :
    computeNewKey t k =
      Option.map (fun p => strReplace k p.1 p.2) t.getLast? := by
  rw [computeNewKey, foldl_discard_last]
  cases h : t.getLast? <;> simp [h]

theorem computeNewKey_isSome {t : Dict String} (ht : t ≠ []) (k : String) :
    (computeNewKey t k).isSome := by
  rw [computeNewKey_eq_getLast, List.getLast?_eq_getLast t ht]
  simp

/-! ## String-replace lemmas -/

theorem replaceAllGo_eq_self (pat rep : List Char) :
    ∀ s : List Char, listContains pat s = false →
      replaceAllGo pat rep s 0 = s := by
  intro s
  induction s with
  | nil => intro _; rfl
  | cons c rest ih =>
      intro h
      rw [listContains, Bool.or_eq_false_iff] at h
      rw [replaceAllGo, if_neg (by simp [h.1]), ih h.2]

theorem strReplace_eq_self {pat s : String} (rep : String)
    (h : strContains pat s = false) : strReplace s pat rep = s := by
  have hne : pat.data.isEmpty = false := by
    cases hd : pat.data with
    | nil =>
        exfalso
        rw [strContains, hd] at h
        cases hs : s.data with
        | nil => rw [hs] at h; simp [listContains] at h
        | cons c r => rw [hs] at h; simp [listContains, isPrefOf] at h
    | cons c r => simp
  rw [strReplace, if_neg (by simp [hne])]
  rw [replaceAllGo_eq_self pat.data rep.data s.data h]

/-! ## The rename loop: no-collision characterization and totality -/

theorem renameLoop_spec {α : Type} (t : Dict String) (rep : String → String)
    (hrep : ∀ k, computeNewKey t k = some (rep k)) :
    ∀ (snap : List (String × α)) (out : Dict α),
      (dkeys snap).Nodup →
      (∀ k ∈ dkeys snap, rep k = k ∨ rep k ∉ dkeys snap) →
      (∀ k1 ∈ dkeys snap, ∀ k2 ∈ dkeys snap, rep k1 = rep k2 → k1 = k2) →
      (∀ k ∈ dkeys snap, rep k ∉ dkeys out) →
      renameLoop t snap (snap ++ out) =
        some (out ++ snap.map (fun p => (rep p.1, p.2))) := by
  intro snap
  induction snap with
  | nil => intro out _ _ _ _; simp [renameLoop]
  | cons p rest ih =>
      intro out hnd h1 h2 h4
      obtain ⟨k, v⟩ := p
      have hkmem : k ∈ dkeys ((k, v) :: rest) :=
        show k ∈ k :: dkeys rest from List.mem_cons_self k (dkeys rest)
      have hknodup : k ∉ dkeys rest := by
        have := hnd
        simp only [dkeys, List.map_cons, List.nodup_cons] at this
        exact this.1
      have hpop : dpop k (((k, v) :: rest) ++ out) = some (v, rest ++ out) := by
        rw [List.cons_append, dpop, if_pos rfl]
      have hset : dset (rest ++ out) (rep k) v = (rest ++ out) ++ [(rep k, v)] := by
        refine dset_of_not_mem v ?_
        rw [dkeys_append]
        intro hmem
        rcases List.mem_append.mp hmem with hm | hm
        · rcases h1 k hkmem with he | he
          · exact hknodup (he ▸ hm)
          · exact he (show rep k ∈ k :: dkeys rest from List.mem_cons_of_mem _ hm)
        · exact h4 k hkmem hm
      rw [renameLoop]
      simp only [hrep k, hpop, hset]
      rw [List.append_assoc]
      have hrest :
          renameLoop t rest (rest ++ (out ++ [(rep k, v)])) =
            some ((out ++ [(rep k, v)]) ++ rest.map (fun p => (rep p.1, p.2))) := by
        refine ih (out ++ [(rep k, v)]) ?_ ?_ ?_ ?_
        · have := hnd
          simp only [dkeys, List.map_cons, List.nodup_cons] at this
          exact this.2
        · intro k1 hk1
          have hk1c : k1 ∈ dkeys ((k, v) :: rest) :=
            show k1 ∈ k :: dkeys rest from List.mem_cons_of_mem _ hk1
          rcases h1 k1 hk1c with he | he
          · exact Or.inl he
          · exact Or.inr (fun hc =>
              he (show rep k1 ∈ k :: dkeys rest from List.mem_cons_of_mem _ hc))
        · intro k1 hk1 k2 hk2 heq
          exact h2 k1 (show k1 ∈ k :: dkeys rest from List.mem_cons_of_mem _ hk1)
            k2 (show k2 ∈ k :: dkeys rest from List.mem_cons_of_mem _ hk2) heq
        · intro k1 hk1
          have hk1c : k1 ∈ dkeys ((k, v) :: rest) :=
            show k1 ∈ k :: dkeys rest from List.mem_cons_of_mem _ hk1
          rw [dkeys_append]
          intro hmem
          rcases List.mem_append.mp hmem with hm | hm
          · exact h4 k1 hk1c hm
          · have hmk : rep k1 = rep k := by
              have : rep k1 ∈ [rep k] := by
                simpa [dkeys] using hm
              simpa using this
            have hk1k : k1 = k := h2 k1 hk1c k hkmem hmk
            exact hknodup (hk1k ▸ hk1)
      rw [hrest]
      simp

theorem renameLoop_total {α : Type} {t : Dict String} (ht : t ≠ []) :
    ∀ (snap : List (String × α)) (d : Dict α),
      (dkeys snap).Nodup → (∀ k ∈ dkeys snap, k ∈ dkeys d) →
      (dkeys d).Nodup →
      ∃ r, renameLoop t snap d = some r ∧ (dkeys r).Nodup := by
  intro snap
  induction snap with
  | nil => intro d _ _ hd; exact ⟨d, rfl, hd⟩
  | cons p rest ih =>
      intro d hnd hmem hd
      obtain ⟨k, v⟩ := p
      have hkd : k ∈ dkeys d :=
        hmem k (show k ∈ k :: dkeys rest from List.mem_cons_self k (dkeys rest))
      obtain ⟨nk, hnk⟩ := Option.isSome_iff_exists.mp (computeNewKey_isSome ht k)
      obtain ⟨pr, hpr⟩ := Option.isSome_iff_exists.mp (dpop_isSome_of_mem hkd)
      obtain ⟨v1, d1⟩ := pr
      have hknodup : k ∉ dkeys rest := by
        have := hnd
        simp only [dkeys, List.map_cons, List.nodup_cons] at this
        exact this.1
      have hd1 : (dkeys d1).Nodup := (dpop_keys_sublist hpr).nodup hd
      have hrestnd : (dkeys rest).Nodup := by
        have := hnd
        simp only [dkeys, List.map_cons, List.nodup_cons] at this
        exact this.2
      have hrestmem : ∀ k1 ∈ dkeys rest, k1 ∈ dkeys (dset d1 nk v1) := by
        intro k1 hk1
        refine mem_dkeys_dset v1 ?_
        refine dpop_mem_of_ne hpr ?_
          (hmem k1 (show k1 ∈ k :: dkeys rest from List.mem_cons_of_mem _ hk1))
        intro hc
        exact hknodup (hc ▸ hk1)
      obtain ⟨r, hr, hrnd⟩ :=
        ih (dset d1 nk v1) hrestnd hrestmem (nodup_dkeys_dset v1 hd1)
      refine ⟨r, ?_, hrnd⟩
      rw [renameLoop]
      simp only [hnk, hpr, hr]

/-- The pieces of lines 55-59 assembled: under distinct keys, with every
renamed key either fixed or fresh, and with the rename injective on the
keys, the in-place loop computes exactly the pointwise rename. -/
theorem renameStateDict_spec {α : Type} (t : Dict String) (rep : String → String)
    (hrep : ∀ k, computeNewKey t k = some (rep k)) (d : Dict α)
    (hnd : (dkeys d).Nodup)
    (h1 : ∀ k ∈ dkeys d, rep k = k ∨ rep k ∉ dkeys d)
    (h2 : ∀ k1 ∈ dkeys d, ∀ k2 ∈ dkeys d, rep k1 = rep k2 → k1 = k2) :
    renameStateDict t d = some (d.map (fun p => (rep p.1, p.2))) := by
  have h := renameLoop_spec t rep hrep d [] hnd h1 h2 (by simp [dkeys])
  simpa [renameStateDict] using h

/-! ## Loader and validator lemmas -/

theorem dlookup_loadStateDict {params sd : Dict Int} {k : String} {v : Int}
    (hsd : dlookup k sd = some v) (hp : k ∈ dkeys params) :
    dlookup k (loadStateDict params sd) = some v := by
  induction params with
  | nil => simp [dkeys] at hp
  | cons p rest ih =>
      by_cases hk : p.1 = k
      · subst hk
        simp [loadStateDict, dlookup, hsd]
      · have hp2 : k ∈ dkeys rest := by
          have h2 : k ∈ p.1 :: dkeys rest := hp
          rcases List.mem_cons.mp h2 with h1 | h1
          · exact absurd h1.symm hk
          · exact h1
        have := ih hp2
        cases hl : dlookup p.1 sd <;>
          simpa [loadStateDict, dlookup, hk, hl] using this

theorem mem_keysF_iff {α : Type} (k : String) (d : Dict α) :
    k ∈ keysF d ↔ k ∈ dkeys d := by
  rw [keysF, List.mem_toFinset]

theorem validate_self (S : Finset String) : validate S S = none := by
  simp [validate]

/-! ## Claim theorems -/

/-- C1: the Structural Validator computes `extra` as the renamed key set
minus the expected key set and `missing` as the expected key set minus the
renamed key set, each filtered to drop ignore-suffixed keys; it raises the
extra-keys error (naming the filtered extra set) exactly when that set is
non-empty, and otherwise the missing-keys error (naming the filtered
missing set) exactly when that set is non-empty. -/
theorem validator_extra_missing_characterization (S E : Finset String) :
    validate S E =
      (if (specExtra S E).Nonempty then
        some (ConvError.extraKeysError (specExtra S E))
      else if (specMissing S E).Nonempty then
        some (ConvError.missingKeysError (specMissing S E))
      else none) := by
  simp only [validate, specExtra, specMissing, Finset.card_ne_zero]

/-- C7: a key carrying the ignore suffix `.attn.bias` that is present on
one side only (only among the renamed keys, or only among the expected
keys) never changes the validation outcome, so it never triggers an
extra-keys or missing-keys failure. -/
theorem ignored_key_never_fails (S E : Finset String) (k : String)
    (hig : isIgnored k = true) :
    (k ∉ E → validate (insert k S) E = validate S E) ∧
    (k ∉ S → validate S (insert k E) = validate S E) := by
  constructor
  · intro hkE
    have hextra : specExtra (insert k S) E = specExtra S E := by
      rw [specExtra, specExtra, Finset.insert_sdiff_of_not_mem _ hkE,
        Finset.filter_insert, if_neg (by simp [hig])]
    have hmissing : specMissing (insert k S) E = specMissing S E := by
      rw [specMissing, specMissing, Finset.sdiff_insert,
        Finset.erase_eq_of_not_mem (by simp [hkE])]
    rw [validator_extra_missing_characterization,
      validator_extra_missing_characterization, hextra, hmissing]
  · intro hkS
    have hextra : specExtra S (insert k E) = specExtra S E := by
      rw [specExtra, specExtra, Finset.sdiff_insert,
        Finset.erase_eq_of_not_mem (by simp [hkS])]
    have hmissing : specMissing S (insert k E) = specMissing S E := by
      rw [specMissing, specMissing, Finset.insert_sdiff_of_not_mem _ hkS,
        Finset.filter_insert, if_neg (by simp [hig])]
    rw [validator_extra_missing_characterization,
      validator_extra_missing_characterization, hextra, hmissing]

/-- Witness for C7 at a concrete input: the ignore-suffixed key
`x.attn.bias`, present only among the renamed keys, leaves validation
unchanged. -/
theorem ignored_key_never_fails_witness :
    validate (insert "x.attn.bias" {"a"}) {"a"} = validate {"a"} {"a"} :=
  (ignored_key_never_fails {"a"} {"a"} "x.attn.bias" (by decide)).1 (by decide)

/-- C10: in the rename loop, the new key for a source key is computed from
the last rename-table entry alone — replacements for all earlier entries
are computed and discarded — and with the program's single-entry `MAPPING`
this coincides with applying its one entry. -/
theorem rename_uses_last_table_entry (t : Dict String) (p : String × String)
    (k : String) :
    computeNewKey (t ++ [p]) k = some (strReplace k p.1 p.2) ∧
    computeNewKey MAPPING k = some (strReplace k "conv_post" "final_conv") := by
  constructor
  · rw [computeNewKey_eq_getLast, List.getLast?_concat]
    rfl
  · rfl

/-- C8: the Model Assembler aliases the generator's text encoder, flow,
decoder, duration predictor and posterior encoder into the combined model,
aliases the generator's speaker embedding exactly when the configuration
declares more than one speaker (otherwise the fresh model's own embedding
is kept), and attaches the loaded discriminator. -/
theorem assembler_aliases_submodules {μ δ : Type} (cfg : VitsConfigM)
    (fresh : PreTrainingModel μ δ) (generator : GeneratorModel μ) (disc : δ) :
    (assembleModel cfg fresh generator disc).text_encoder = generator.text_encoder ∧
    (assembleModel cfg fresh generator disc).flow = generator.flow ∧
    (assembleModel cfg fresh generator disc).decoder = generator.decoder ∧
    (assembleModel cfg fresh generator disc).duration_predictor =
      generator.duration_predictor ∧
    (assembleModel cfg fresh generator disc).posterior_encoder =
      generator.posterior_encoder ∧
    (assembleModel cfg fresh generator disc).embed_speaker =
      (if cfg.num_speakers > 1 then generator.embed_speaker
       else fresh.embed_speaker) ∧
    (assembleModel cfg fresh generator disc).discriminator = disc := by
  by_cases h : cfg.num_speakers > 1 <;>
    simp [assembleModel, h]

/-- C4 counterexample: the input key `final_conv.w` contains no pattern of
the table, yet after renaming it does not keep its original value 2 — the
in-place loop first writes value 1 of `conv_post.w` over it, and the later
iteration then re-pops that already overwritten value. -/
theorem rename_clobbers_untouched_key :
    strContains "conv_post" "final_conv.w" = false ∧
    renameStateDict MAPPING [("conv_post.w", (1 : Int)), ("final_conv.w", (2 : Int))] =
      some [("final_conv.w", (1 : Int))] := by
  constructor
  · decide
  · decide

/-- C4 (amended): for an input mapping with distinct keys in which no key's
rename-image collides with a different key of the mapping (each renamed key
either equals its source key or is absent from the key set, and distinct
keys have distinct rename-images), the Key Mapper with the program's table
produces exactly the pointwise rename: every key containing the pattern
appears substring-replaced keeping its value, every other key passes
through unchanged with its original value. -/
theorem rename_pointwise_of_no_collision {α : Type} (d : Dict α)
    (hnd : (dkeys d).Nodup)
    (h1 : ∀ k ∈ dkeys d, repMapping k = k ∨ repMapping k ∉ dkeys d)
    (h2 : ∀ k1 ∈ dkeys d, ∀ k2 ∈ dkeys d, repMapping k1 = repMapping k2 → k1 = k2) :
    renameStateDict MAPPING d = some (d.map (fun p => (repMapping p.1, p.2))) :=
  renameStateDict_spec MAPPING repMapping (fun _ => rfl) d hnd h1 h2

/-- Witness for the amended C4 at a concrete collision-free input. -/
theorem rename_pointwise_of_no_collision_witness :
    renameStateDict MAPPING [("conv_post.weight", (3 : Int)), ("other.bias", (4 : Int))] =
      some [("final_conv.weight", (3 : Int)), ("other.bias", (4 : Int))] := by
  rw [rename_pointwise_of_no_collision
    [("conv_post.weight", (3 : Int)), ("other.bias", (4 : Int))]
    (by decide) (by decide) (by decide)]
  rfl

/-- C5 counterexample: the distinct input keys `conv_post.w` (value 10,
processed first) and `final_conv.w` (value 20, processed later) both rename
to `final_conv.w`, but the surviving value is 10 — the earlier key's value,
not the later one's, refuting last-write-wins. -/
theorem rename_not_last_write_wins :
    renameStateDict MAPPING [("conv_post.w", (10 : Int)), ("final_conv.w", (20 : Int))] =
      some [("final_conv.w", (10 : Int))] ∧ (10 : Int) ≠ 20 := by
  constructor
  · decide
  · decide

/-- C5 (amended): for any non-empty rename table the rename step is total
— it never fails on any input mapping with distinct keys — and the output
holds a single entry per key; on a collision one value silently survives
with no error raised, but which one depends on the iteration order and on
whether the shared output key itself occurs as a later input key. -/
theorem rename_total_unique_keys {α : Type} (t : Dict String) (d r : Dict α)
    (ht : t ≠ []) (hnd : (dkeys d).Nodup) :
    (renameStateDict t d).isSome = true ∧
    (renameStateDict t d = some r → (dkeys r).Nodup) := by
  obtain ⟨r1, hr1, hnd1⟩ := renameLoop_total ht d d hnd (fun _ hk => hk) hnd
  rw [renameStateDict] at *
  constructor
  · rw [hr1]; rfl
  · intro h
    rw [hr1] at h
    cases Option.some.inj h
    exact hnd1

/-- Witness for the amended C5 at a concrete input. -/
theorem rename_total_unique_keys_witness :
    (renameStateDict MAPPING [("conv_post.w", (1 : Int))]).isSome = true ∧
    (renameStateDict MAPPING [("conv_post.w", (1 : Int))] =
        some [("final_conv.w", (1 : Int))] →
      (dkeys [("final_conv.w", (1 : Int))]).Nodup) :=
  rename_total_unique_keys MAPPING [("conv_post.w", (1 : Int))]
    [("final_conv.w", (1 : Int))] (by decide) (by decide)

/-- C9: for any non-empty rename table none of whose patterns occurs in any
key of the input mapping, the Key Mapper returns the input mapping
unchanged. -/
theorem rename_identity_when_no_pattern {α : Type} (t : Dict String)
    (d : Dict α) (ht : t ≠ []) (hnd : (dkeys d).Nodup)
    (h : ∀ p ∈ t, ∀ k ∈ dkeys d, strContains p.1 k = false) :
    renameStateDict t d = some d := by
  have hlast : t.getLast? = some (t.getLast ht) := List.getLast?_eq_getLast t ht
  have hqmem : t.getLast ht ∈ t := List.getLast_mem ht
  have hrep : ∀ k, computeNewKey t k =
      some (strReplace k (t.getLast ht).1 (t.getLast ht).2) := by
    intro k
    rw [computeNewKey_eq_getLast, hlast]
    rfl
  have hfix : ∀ k ∈ dkeys d, strReplace k (t.getLast ht).1 (t.getLast ht).2 = k :=
    fun k hk => strReplace_eq_self _ (h (t.getLast ht) hqmem k hk)
  have hspec := renameStateDict_spec t
    (fun k => strReplace k (t.getLast ht).1 (t.getLast ht).2) hrep d hnd
    (fun k hk => Or.inl (hfix k hk))
    (fun k1 hk1 k2 hk2 heq => by
      have heq2 : strReplace k1 (t.getLast ht).1 (t.getLast ht).2 =
          strReplace k2 (t.getLast ht).1 (t.getLast ht).2 := heq
      rw [hfix k1 hk1, hfix k2 hk2] at heq2
      exact heq2)
  rw [hspec]
  congr 1
  have hmap : d.map (fun p => ((fun k =>
      strReplace k (t.getLast ht).1 (t.getLast ht).2) p.1, p.2)) = d.map id := by
    refine List.map_congr_left ?_
    intro p hp
    have hp1 : p.1 ∈ dkeys d := List.mem_map_of_mem Prod.fst hp
    simp [hfix p.1 hp1]
  rw [hmap, List.map_id]

/-- Witness for C9 at a concrete input containing no pattern. -/
theorem rename_identity_when_no_pattern_witness :
    renameStateDict MAPPING [("a.weight", (1 : Int))] =
      some [("a.weight", (1 : Int))] :=
  rename_identity_when_no_pattern MAPPING [("a.weight", (1 : Int))]
    (by decide) (by decide) (by decide)

/-- C2 counterexample: on a validation failure the conversion exits with
the discriminator still in the expanded (weight-norm-applied) form —
`remove_weight_norm` is not reached on this exit path, since the source has
no unconditional cleanup around the load. -/
theorem weight_norm_not_removed_on_error :
    (convertCore trivScheme (some [("x.weight", (5 : Int))]) []).2 =
      some (ConvError.extraKeysError {"x.weight"}) ∧
    (convertCore trivScheme (some [("x.weight", (5 : Int))]) []).1.expanded = true := by
  constructor
  · decide
  · decide

/-- C2 (amended): the reparameterization collapse is reached exactly on the
error-free path — the conversion ends with the discriminator un-expanded if
and only if it raises no error; on every error exit (load failure, rename
failure, or either validation failure) the module is left expanded. -/
theorem weight_norm_removed_iff_no_error (sch : WeightNormScheme)
    (loadResult : Option (Dict Int)) (init : Dict Int) :
    (convertCore sch loadResult init).1.expanded = false ↔
      (convertCore sch loadResult init).2 = none := by
  cases loadResult with
  | none => simp [convertCore]
  | some ckpt =>
      cases hr : renameStateDict MAPPING ckpt with
      | none => simp [convertCore, hr]
      | some sd =>
          cases hv : validate (keysF sd) (keysF (expandParams sch init)) with
          | none => simp [convertCore, hr, hv]
          | some e => simp [convertCore, hr, hv]

/-- C3 counterexample: a validation failure (extra key `x.weight`) is
raised, yet the discriminator module is not in the state it had when
constructed — `apply_weight_norm` has already reparameterized it before
validation runs. -/
theorem validation_error_module_already_modified :
    (convertCore oneKeyScheme (some [("x.weight", (5 : Int))]) [("w", (3 : Int))]).2 =
      some (ConvError.extraKeysError {"x.weight"}) ∧
    (convertCore oneKeyScheme (some [("x.weight", (5 : Int))]) [("w", (3 : Int))]).1 ≠
      ⟨false, [("w", (3 : Int))]⟩ := by
  constructor
  · decide
  · decide

/-- C3 (amended): both validation checks run before the Checkpoint Loader's
mutation, so when a validation error is raised no checkpoint value has been
assigned — the module holds exactly the weight-norm expansion of its
constructed parameters; it is modified only by the reparameterization, not
by the load. -/
theorem validation_error_leaves_params_unloaded (sch : WeightNormScheme)
    (ckpt init : Dict Int) (st : DiscState) (e : ConvError)
    (h : convertCore sch (some ckpt) init = (st, some e))
    (hv : isValidationError e = true) :
    st = ⟨true, expandParams sch init⟩ := by
  cases hr : renameStateDict MAPPING ckpt with
  | none =>
      simp only [convertCore, hr, Prod.mk.injEq] at h
      cases Option.some.inj h.2
      simp [isValidationError] at hv
  | some sd =>
      cases hvv : validate (keysF sd) (keysF (expandParams sch init)) with
      | none =>
          simp only [convertCore, hr, hvv, Prod.mk.injEq] at h
          exact absurd h.2 (by simp)
      | some e1 =>
          simp only [convertCore, hr, hvv, Prod.mk.injEq] at h
          exact h.1.symm

/-- Witness for the amended C3 at a concrete input: the module after the
failed conversion is exactly the expansion of its constructed parameters. -/
theorem validation_error_leaves_params_unloaded_witness :
    (⟨true, [("w_g", (3 : Int)), ("w_v", (3 : Int))]⟩ : DiscState) =
      ⟨true, expandParams oneKeyScheme [("w", (3 : Int))]⟩ :=
  validation_error_leaves_params_unloaded oneKeyScheme [("x.weight", (5 : Int))]
    [("w", (3 : Int))] ⟨true, [("w_g", (3 : Int)), ("w_v", (3 : Int))]⟩
    (ConvError.extraKeysError {"x.weight"}) (by decide) (by decide)

/-- C6: when the renamed mapping's key set exactly equals the (expanded)
destination module's expected key set, the validator reports empty filtered
extra and missing sets and no error, the conversion completes without
error, the loader runs (the final module is the collapse of the loaded
expanded parameters), and each mapped value is assigned into the parameter
of the same name. -/
theorem keyset_match_load_succeeds (sch : WeightNormScheme)
    (ckpt init sd : Dict Int) (k : String) (v : Int)
    (hr : renameStateDict MAPPING ckpt = some sd)
    (hk : keysF sd = keysF (expandParams sch init)) :
    specExtra (keysF sd) (keysF (expandParams sch init)) = ∅ ∧
    specMissing (keysF sd) (keysF (expandParams sch init)) = ∅ ∧
    validate (keysF sd) (keysF (expandParams sch init)) = none ∧
    (convertCore sch (some ckpt) init).2 = none ∧
    (convertCore sch (some ckpt) init).1 =
      ⟨false, collapseParams sch (loadStateDict (expandParams sch init) sd)⟩ ∧
    (dlookup k sd = some v →
      dlookup k (loadStateDict (expandParams sch init) sd) = some v) := by
  have hex : specExtra (keysF sd) (keysF (expandParams sch init)) = ∅ := by
    rw [specExtra, hk, Finset.sdiff_self, Finset.filter_empty]
  have hmiss : specMissing (keysF sd) (keysF (expandParams sch init)) = ∅ := by
    rw [specMissing, hk, Finset.sdiff_self, Finset.filter_empty]
  have hval : validate (keysF sd) (keysF (expandParams sch init)) = none := by
    rw [hk, validate_self]
  refine ⟨hex, hmiss, hval, ?_, ?_, ?_⟩
  · simp [convertCore, hr, hval]
  · simp [convertCore, hr, hval]
  · intro hlk
    refine dlookup_loadStateDict hlk ?_
    have hmemsd : k ∈ dkeys sd := by
      by_contra hc
      rw [← dlookup_eq_none_iff] at hc
      rw [hc] at hlk
      exact absurd hlk (by simp)
    have : k ∈ keysF (expandParams sch init) := hk ▸ (mem_keysF_iff k sd).mpr hmemsd
    exact (mem_keysF_iff k (expandParams sch init)).mp this

/-- Witness for C6: the spec's end-to-end scenario — the source key
`conv_post.weight` with value 7 renames to `final_conv.weight`, the key
sets match, the conversion raises no error and the loader assigns the
source tensor value exactly. -/
theorem keyset_match_load_succeeds_witness :
    (convertCore trivScheme (some [("conv_post.weight", (7 : Int))])
        [("final_conv.weight", (0 : Int))]).2 = none ∧
    (dlookup "final_conv.weight" [("final_conv.weight", (7 : Int))] = some 7 →
      dlookup "final_conv.weight"
        (loadStateDict (expandParams trivScheme [("final_conv.weight", (0 : Int))])
          [("final_conv.weight", (7 : Int))]) = some 7) := by
  have h := keyset_match_load_succeeds trivScheme [("conv_post.weight", (7 : Int))]
    [("final_conv.weight", (0 : Int))] [("final_conv.weight", (7 : Int))]
    "final_conv.weight" 7 (by decide) (by decide)
  exact ⟨h.2.2.2.1, h.2.2.2.2.2⟩

end VitsConv
